import Mathlib

/-!
# Verification of the Lica pack/unpack codec (`src/Main.py`)

A shallow embedding of the `lica` converter: `pack` turns a zip archive into a
flat JSON object mapping member names to base64-encoded contents, and `unpack`
reverses the conversion in either a bulk (`json.load`) or a streaming
(`ijson.kvitems`) mode.

Modelling conventions:
* bytes are `Nat` with an explicit `< 256` hypothesis where it matters;
* strings are `List Char` (Lean `Char` = Unicode scalar value, matching
  Python `str` minus lone surrogates, which never occur in this pipeline);
* the filesystem is a record of file and directory entries; write errors,
  permissions and files already written when a malformed streaming input
  errors midway are not modelled (no verified property depends on them);
* library collaborators that the source calls (`base64.b64encode/b64decode`,
  `json.dumps` string escaping, the flat-object JSON parse shared by
  `json.load` and `ijson.kvitems`, `os.path.join`/`os.path.dirname`/
  `os.makedirs` in POSIX convention) are modelled concretely below, faithful
  to their documented behaviour on the container grammar of the spec.
-/

/-! ## Base64 (model of `base64.b64encode` / `base64.b64decode`) -/

/-- The standard base64 alphabet, in value order. -/
def b64Alphabet : List Char :=
  "ABCDEFGHIJKLMNOPQRSTUVWXYZabcdefghijklmnopqrstuvwxyz0123456789+/".toList

/-- Character for a 6-bit value. -/
def b64Table (n : Nat) : Char := b64Alphabet.getD n 'A'

/-- 6-bit value of an alphabet character (only used on alphabet members). -/
def b64CharVal (c : Char) : Nat := b64Alphabet.indexOf c

/-- Whether a character is a base64 data character (padding excluded). -/
def isB64Char (c : Char) : Bool := b64Alphabet.contains c

/-- `base64.b64encode`: 3 input bytes become 4 alphabet characters; a final
group of 1 or 2 bytes is padded with `=`. -/
def b64encode : List Nat → List Char
  | [] => []
  | [b1] => [b64Table (b1 / 4), b64Table (b1 % 4 * 16), '=', '=']
  | [b1, b2] =>
      [b64Table (b1 / 4), b64Table (b1 % 4 * 16 + b2 / 16), b64Table (b2 % 16 * 4), '=']
  | b1 :: b2 :: b3 :: rest =>
      b64Table (b1 / 4) :: b64Table (b1 % 4 * 16 + b2 / 16) ::
      b64Table (b2 % 16 * 4 + b3 / 64) :: b64Table (b3 % 64) :: b64encode rest

/-- Decode a list of 6-bit values (the data characters after filtering);
fails when the count is 1 more than a multiple of 4, as `binascii` does. -/
def b64decodeData : List Nat → Option (List Nat)
  | [] => some []
  | [_] => none
  | [a, b] => some [a * 4 + b / 16]
  | [a, b, c] => some [a * 4 + b / 16, b % 16 * 16 + c / 4]
  | a :: b :: c :: d :: rest =>
      (b64decodeData rest).map
        (fun t => (a * 4 + b / 16) :: (b % 16 * 16 + c / 4) :: (c % 4 * 64 + d) :: t)

/-- `base64.b64decode` on a text value (`validate=False`): the string must be
ASCII, characters outside the alphabet are discarded, the total of data and
padding characters must fill whole 4-character groups, and a leftover single
data character is an error. -/
def b64decode (s : List Char) : Option (List Nat) :=
  if s.any (fun c => 128 ≤ c.toNat) then none
  else
    let data := s.filter isB64Char
    if (data.length + s.count '=') % 4 = 0 then b64decodeData (data.map b64CharVal)
    else none

theorem b64Table_isB64 (n : Nat) : isB64Char (b64Table n) = true := by
  rcases Nat.lt_or_ge n 64 with h | h
  · have : ∀ m : Fin 64, isB64Char (b64Table m.val) = true := by decide
    exact this ⟨n, h⟩
  · have hlen : b64Alphabet.length ≤ n := by
      have : b64Alphabet.length = 64 := by decide
      omega
    unfold b64Table
    rw [List.getD_eq_default _ _ hlen]
    decide

theorem b64CharVal_table (n : Nat) (h : n < 64) : b64CharVal (b64Table n) = n := by
  have : ∀ m : Fin 64, b64CharVal (b64Table m.val) = m.val := by decide
  exact this ⟨n, h⟩

theorem b64Table_ne_pad (n : Nat) : b64Table n ≠ '=' := by
  rcases Nat.lt_or_ge n 64 with h | h
  · have : ∀ m : Fin 64, b64Table m.val ≠ '=' := by decide
    exact this ⟨n, h⟩
  · have hlen : b64Alphabet.length ≤ n := by
      have : b64Alphabet.length = 64 := by decide
      omega
    unfold b64Table
    rw [List.getD_eq_default _ _ hlen]
    decide

theorem b64Table_ascii (n : Nat) : (b64Table n).toNat < 128 := by
  rcases Nat.lt_or_ge n 64 with h | h
  · have : ∀ m : Fin 64, (b64Table m.val).toNat < 128 := by decide
    exact this ⟨n, h⟩
  · have hlen : b64Alphabet.length ≤ n := by
      have : b64Alphabet.length = 64 := by decide
      omega
    unfold b64Table
    rw [List.getD_eq_default _ _ hlen]
    decide

theorem isB64_pad : isB64Char '=' = false := by decide

theorem b64encode_ascii (b : List Nat) : ∀ c ∈ b64encode b, c.toNat < 128 := by
  induction b using b64encode.induct with
  | case1 => simp [b64encode]
  | case2 b1 =>
    simp only [b64encode, List.mem_cons, List.not_mem_nil, or_false]
    rintro c (rfl | rfl | rfl | rfl) <;> first | exact b64Table_ascii _ | decide
  | case3 b1 b2 =>
    simp only [b64encode, List.mem_cons, List.not_mem_nil, or_false]
    rintro c (rfl | rfl | rfl | rfl) <;> first | exact b64Table_ascii _ | decide
  | case4 b1 b2 b3 rest ih =>
    simp only [b64encode, List.mem_cons]
    rintro c (rfl | rfl | rfl | rfl | hc) <;>
      first | exact b64Table_ascii _ | exact ih c hc

theorem b64_enc_parts (b : List Nat) (h : ∀ x ∈ b, x < 256) :
    (((b64encode b).filter isB64Char).length + (b64encode b).count '=') % 4 = 0 ∧
    b64decodeData (((b64encode b).filter isB64Char).map b64CharVal) = some b := by
  induction b using b64encode.induct with
  | case1 => simp [b64encode, b64decodeData]
  | case2 b1 =>
    have hb1 : b1 < 256 := h b1 (by simp)
    have e1 : b64CharVal (b64Table (b1 / 4)) = b1 / 4 := b64CharVal_table _ (by omega)
    have e2 : b64CharVal (b64Table (b1 % 4 * 16)) = b1 % 4 * 16 := b64CharVal_table _ (by omega)
    simp [b64encode, List.filter, b64Table_isB64, isB64_pad, List.count_cons,
      b64Table_ne_pad, e1, e2, b64decodeData]
    omega
  | case3 b1 b2 =>
    have hb1 : b1 < 256 := h b1 (by simp)
    have hb2 : b2 < 256 := h b2 (by simp)
    have e1 : b64CharVal (b64Table (b1 / 4)) = b1 / 4 := b64CharVal_table _ (by omega)
    have e2 : b64CharVal (b64Table (b1 % 4 * 16 + b2 / 16)) = b1 % 4 * 16 + b2 / 16 :=
      b64CharVal_table _ (by omega)
    have e3 : b64CharVal (b64Table (b2 % 16 * 4)) = b2 % 16 * 4 := b64CharVal_table _ (by omega)
    simp [b64encode, List.filter, b64Table_isB64, isB64_pad, List.count_cons,
      b64Table_ne_pad, e1, e2, e3, b64decodeData]
    omega
  | case4 b1 b2 b3 rest ih =>
    have hb1 : b1 < 256 := h b1 (by simp)
    have hb2 : b2 < 256 := h b2 (by simp)
    have hb3 : b3 < 256 := h b3 (by simp)
    have hrest : ∀ x ∈ rest, x < 256 := fun x hx => h x (by simp [hx])
    obtain ⟨ihm, ihd⟩ := ih hrest
    have e1 : b64CharVal (b64Table (b1 / 4)) = b1 / 4 := b64CharVal_table _ (by omega)
    have e2 : b64CharVal (b64Table (b1 % 4 * 16 + b2 / 16)) = b1 % 4 * 16 + b2 / 16 :=
      b64CharVal_table _ (by omega)
    have e3 : b64CharVal (b64Table (b2 % 16 * 4 + b3 / 64)) = b2 % 16 * 4 + b3 / 64 :=
      b64CharVal_table _ (by omega)
    have e4 : b64CharVal (b64Table (b3 % 64)) = b3 % 64 := b64CharVal_table _ (by omega)
    have hf : (b64encode (b1 :: b2 :: b3 :: rest)).filter isB64Char =
        b64Table (b1 / 4) :: b64Table (b1 % 4 * 16 + b2 / 16) ::
        b64Table (b2 % 16 * 4 + b3 / 64) :: b64Table (b3 % 64) ::
        (b64encode rest).filter isB64Char := by
      simp [b64encode, List.filter_cons, b64Table_isB64]
    have hc : (b64encode (b1 :: b2 :: b3 :: rest)).count '=' = (b64encode rest).count '=' := by
      simp [b64encode, List.count_cons, b64Table_ne_pad]
    rw [hf, hc]
    refine ⟨by simp only [List.length_cons]; omega, ?_⟩
    simp only [List.map_cons, e1, e2, e3, e4, b64decodeData, ihd, Option.map_some']
    simp only [Option.some.injEq, List.cons.injEq]
    exact ⟨by omega, by omega, by omega, trivial⟩

theorem b64_decode_encode (b : List Nat) (h : ∀ x ∈ b, x < 256) :
    b64decode (b64encode b) = some b := by
  have hascii : (b64encode b).any (fun c => 128 ≤ c.toNat) = false := by
    simp only [List.any_eq_false, decide_eq_true_eq]
    intro c hc
    exact Nat.not_le.mpr (b64encode_ascii b c hc)
  obtain ⟨hm, hd⟩ := b64_enc_parts b h
  unfold b64decode
  rw [hascii]
  simp only [Bool.false_eq_true, if_false, reduceIte]
  rw [if_pos hm]
  exact hd

/-! ## JSON string escaping (model of `json.dumps` on `str`, `ensure_ascii=True`)
and JSON string parsing (model of the decoder shared by `json.load` and
`ijson`). -/

/-- Lowercase hex digit, as `'\\u%04x'` produces. -/
def hexDigitLC (n : Nat) : Char := "0123456789abcdef".toList.getD n '0'

/-- Four lowercase hex digits of `n < 0x10000`. -/
def toHex4 (n : Nat) : List Char :=
  [hexDigitLC (n / 4096 % 16), hexDigitLC (n / 256 % 16),
   hexDigitLC (n / 16 % 16), hexDigitLC (n % 16)]

/-- A `\uXXXX` escape. -/
def uEsc (n : Nat) : List Char := '\\' :: 'u' :: toHex4 n

/-- `json.dumps` escaping of one character: quote and backslash get a
backslash escape, the five shorthand control characters their shorthands,
printable ASCII passes through, and everything else becomes `\uXXXX`
(a surrogate pair for code points above `0xFFFF`). -/
def escChar (c : Char) : List Char :=
  if c = '"' then ['\\', '"']
  else if c = '\\' then ['\\', '\\']
  else if c = Char.ofNat 8 then ['\\', 'b']
  else if c = Char.ofNat 9 then ['\\', 't']
  else if c = Char.ofNat 10 then ['\\', 'n']
  else if c = Char.ofNat 12 then ['\\', 'f']
  else if c = Char.ofNat 13 then ['\\', 'r']
  else if 32 ≤ c.toNat ∧ c.toNat ≤ 126 then [c]
  else if c.toNat < 65536 then uEsc c.toNat
  else uEsc (55296 + (c.toNat - 65536) / 1024) ++ uEsc (56320 + (c.toNat - 65536) % 1024)

/-- `json.dumps` of a Python `str`: quoted, each character escaped. -/
def jsonDumps (s : List Char) : List Char := '"' :: (s.map escChar).flatten ++ ['"']

/-- Value of a hex digit character (both cases), as the JSON decoder accepts. -/
def hexVal (c : Char) : Option Nat :=
  if '0' ≤ c ∧ c ≤ '9' then some (c.toNat - 48)
  else if 'a' ≤ c ∧ c ≤ 'f' then some (c.toNat - 87)
  else if 'A' ≤ c ∧ c ≤ 'F' then some (c.toNat - 55)
  else none

/-- Value of four hex digits. -/
def hex4 (a b c d : Char) : Option Nat :=
  match hexVal a, hexVal b, hexVal c, hexVal d with
  | some x, some y, some z, some w => some (x * 4096 + y * 256 + z * 16 + w)
  | _, _, _, _ => none

/-- The single-character JSON escapes the decoder accepts. -/
def escShort (c : Char) : Option Char :=
  if c = '"' then some '"'
  else if c = '\\' then some '\\'
  else if c = '/' then some '/'
  else if c = 'b' then some (Char.ofNat 8)
  else if c = 'f' then some (Char.ofNat 12)
  else if c = 'n' then some (Char.ofNat 10)
  else if c = 'r' then some (Char.ofNat 13)
  else if c = 't' then some (Char.ofNat 9)
  else none


/-- Parse the four hex digits of a `\uXXXX` escape (the backslash and `u`
already consumed). -/
def parseUEsc : List Char → Option (Nat × List Char)
  | h1 :: h2 :: h3 :: h4 :: rest => (hex4 h1 h2 h3 h4).map (fun n => (n, rest))
  | _ => none

/-- Parse one escape sequence after a backslash, as `json.decoder` does:
`u` escapes decode to a code unit, a high surrogate must be followed by a
low surrogate escape and the pair is combined.  (CPython tolerates lone
surrogates in `\uXXXX` escapes, producing a surrogate `str`; a lone
surrogate cannot inhabit a Lean `Char`, so this model rejects it.  The
packer never emits lone surrogates, and no verified property depends on
this corner.) -/
def surrPair (n : Nat) : List Char → Option (Char × List Char)
  | '\\' :: 'u' :: rest4 =>
    (parseUEsc rest4).bind (fun q =>
      if 56320 ≤ q.1 ∧ q.1 ≤ 57343 then
        some (Char.ofNat (65536 + (n - 55296) * 1024 + (q.1 - 56320)), q.2)
      else none)
  | _ => none

def parseEscSeq : List Char → Option (Char × List Char)
  | [] => none
  | e :: rest =>
    if e = 'u' then
      (parseUEsc rest).bind (fun q =>
        if q.1 < 55296 ∨ 57343 < q.1 then some (Char.ofNat q.1, q.2)
        else if q.1 < 56320 then surrPair q.1 q.2
        else none)
    else (escShort e).map (fun ec => (ec, rest))

/-- Parse the body of a JSON string after the opening quote, up to and
including the closing quote; returns the decoded characters and the rest of
the input.  Mirrors `json.decoder.py_scanstring` (strict mode): raw control
characters are rejected and escapes are decoded via `parseEscSeq`.  The
fuel only bounds recursion depth: one unit per decoded character, so any
`fuel` greater than the input length behaves identically. -/
def parseStringBody : Nat → List Char → Option (List Char × List Char)
  | 0, _ => none
  | _, [] => none
  | fuel + 1, c :: rest =>
    if c = '"' then some ([], rest)
    else if c = '\\' then
      (parseEscSeq rest).bind (fun q =>
        (parseStringBody fuel q.2).map (fun p => (q.1 :: p.1, p.2)))
    else if c.toNat < 32 then none
    else (parseStringBody fuel rest).map (fun p => (c :: p.1, p.2))

/-- Parse a complete JSON string literal (opening quote included). -/
def parseJsonString (fuel : Nat) : List Char → Option (List Char × List Char)
  | '"' :: rest => parseStringBody fuel rest
  | _ => none

/-- JSON insignificant whitespace. -/
def isJsonWs (c : Char) : Bool :=
  c = ' ' ∨ c = Char.ofNat 9 ∨ c = Char.ofNat 10 ∨ c = Char.ofNat 13

/-- Skip insignificant whitespace. -/
def skipWs (s : List Char) : List Char := s.dropWhile isJsonWs
/-- Every code point of a Lean `Char` is a Unicode scalar value. -/
theorem char_scalar (c : Char) : c.toNat < 55296 ∨ (57343 < c.toNat ∧ c.toNat < 1114112) := by
  have h := c.valid
  simp only [UInt32.isValidChar, Nat.isValidChar] at h
  exact h

theorem hexVal_lc (d : Nat) (h : d < 16) : hexVal (hexDigitLC d) = some d := by
  have : ∀ m : Fin 16, hexVal (hexDigitLC m.val) = some m.val := by decide
  exact this ⟨d, h⟩

theorem hex4_toHex4 (n : Nat) (h : n < 65536) :
    hex4 (hexDigitLC (n / 4096 % 16)) (hexDigitLC (n / 256 % 16))
      (hexDigitLC (n / 16 % 16)) (hexDigitLC (n % 16)) = some n := by
  unfold hex4
  rw [hexVal_lc _ (by omega), hexVal_lc _ (by omega), hexVal_lc _ (by omega),
    hexVal_lc _ (by omega)]
  simp only [Option.some.injEq]
  omega

/-- A character that passes through both the escaper and the parser verbatim. -/
def plainChar (c : Char) : Prop := 32 ≤ c.toNat ∧ c.toNat ≤ 126 ∧ c ≠ '"' ∧ c ≠ '\\'

instance (c : Char) : Decidable (plainChar c) := by
  unfold plainChar
  infer_instance


theorem psb_closeQuote (fuel : Nat) (s : List Char) :
    parseStringBody (fuel + 1) ('"' :: s) = some ([], s) := by
  simp [parseStringBody]

theorem psb_lit (fuel : Nat) (c : Char) (h1 : c ≠ '"') (h2 : c ≠ '\\') (h3 : 32 ≤ c.toNat)
    (s : List Char) :
    parseStringBody (fuel + 1) (c :: s) =
      (parseStringBody fuel s).map (fun p => (c :: p.1, p.2)) := by
  simp only [parseStringBody]
  rw [if_neg h1, if_neg h2, if_neg (by omega)]

theorem psb_escStep (fuel : Nat) (s s2 : List Char) (ec : Char)
    (hp : parseEscSeq s = some (ec, s2)) :
    parseStringBody (fuel + 1) ('\\' :: s) =
      (parseStringBody fuel s2).map (fun p => (ec :: p.1, p.2)) := by
  simp only [parseStringBody, if_true]
  rw [if_neg (by decide), hp]
  simp

theorem pes_short (e ec : Char) (he : escShort e = some ec) (hne : e ≠ 'u') (s : List Char) :
    parseEscSeq (e :: s) = some (ec, s) := by
  simp only [parseEscSeq]
  rw [if_neg hne, he]
  rfl

theorem parseUEsc_toHex4 (m : Nat) (hm : m < 65536) (s : List Char) :
    parseUEsc (toHex4 m ++ s) = some (m, s) := by
  simp only [toHex4, List.cons_append, List.nil_append, parseUEsc]
  rw [hex4_toHex4 m hm]
  rfl

theorem pes_uStep (m : Nat) (hm : m < 65536) (s : List Char) :
    parseEscSeq ('u' :: (toHex4 m ++ s)) =
      (if m < 55296 ∨ 57343 < m then some (Char.ofNat m, s)
       else if m < 56320 then surrPair m s else none) := by
  rw [parseEscSeq, if_pos rfl, parseUEsc_toHex4 m hm s]
  simp only [Option.some_bind]

theorem pes_u (n : Nat) (hn : n < 55296 ∨ (57343 < n ∧ n < 65536)) (s : List Char) :
    parseEscSeq ('u' :: (toHex4 n ++ s)) = some (Char.ofNat n, s) := by
  rw [pes_uStep n (by omega) s, if_pos (by omega)]

theorem surrPair_val (n m : Nat) (h1 : 56320 ≤ m) (h2 : m ≤ 57343) (s : List Char) :
    surrPair n ('\\' :: 'u' :: (toHex4 m ++ s)) =
      some (Char.ofNat (65536 + (n - 55296) * 1024 + (m - 56320)), s) := by
  simp only [surrPair]
  rw [parseUEsc_toHex4 m (by omega) s]
  simp only [Option.some_bind]
  rw [if_pos ⟨h1, h2⟩]

theorem pes_surr (n : Nat) (hn1 : 65536 ≤ n) (hn2 : n < 1114112) (s : List Char) :
    parseEscSeq ('u' :: (toHex4 (55296 + (n - 65536) / 1024) ++
      ('\\' :: 'u' :: (toHex4 (56320 + (n - 65536) % 1024) ++ s)))) =
      some (Char.ofNat n, s) := by
  set hi := 55296 + (n - 65536) / 1024 with hhi
  set lo := 56320 + (n - 65536) % 1024 with hlo
  rw [pes_uStep hi (by omega) _]
  rw [if_neg (by omega), if_pos (by omega)]
  rw [surrPair_val hi lo (by omega) (by omega) s]
  have harith : 65536 + (hi - 55296) * 1024 + (lo - 56320) = n := by omega
  rw [harith]

theorem escChar_quote : escChar '"' = ['\\', '"'] := by decide

theorem escChar_bslash : escChar '\\' = ['\\', '\\'] := by decide

theorem escChar_bs : escChar (Char.ofNat 8) = ['\\', 'b'] := by decide

theorem escChar_tab : escChar (Char.ofNat 9) = ['\\', 't'] := by decide

theorem escChar_nl : escChar (Char.ofNat 10) = ['\\', 'n'] := by decide

theorem escChar_ff : escChar (Char.ofNat 12) = ['\\', 'f'] := by decide

theorem escChar_cr : escChar (Char.ofNat 13) = ['\\', 'r'] := by decide

theorem escChar_plain (c : Char) (h1 : c ≠ '"') (h2 : c ≠ '\\') (hlo : 32 ≤ c.toNat)
    (hhi : c.toNat ≤ 126) : escChar c = [c] := by
  have h3 : c ≠ Char.ofNat 8 := fun e => by rw [e] at hlo; exact absurd hlo (by decide)
  have h4 : c ≠ Char.ofNat 9 := fun e => by rw [e] at hlo; exact absurd hlo (by decide)
  have h5 : c ≠ Char.ofNat 10 := fun e => by rw [e] at hlo; exact absurd hlo (by decide)
  have h6 : c ≠ Char.ofNat 12 := fun e => by rw [e] at hlo; exact absurd hlo (by decide)
  have h7 : c ≠ Char.ofNat 13 := fun e => by rw [e] at hlo; exact absurd hlo (by decide)
  unfold escChar
  rw [if_neg h1, if_neg h2, if_neg h3, if_neg h4, if_neg h5, if_neg h6, if_neg h7,
    if_pos ⟨hlo, hhi⟩]

theorem escChar_uni (c : Char) (h1 : c ≠ '"') (h2 : c ≠ '\\') (h3 : c ≠ Char.ofNat 8)
    (h4 : c ≠ Char.ofNat 9) (h5 : c ≠ Char.ofNat 10) (h6 : c ≠ Char.ofNat 12)
    (h7 : c ≠ Char.ofNat 13) (h8 : ¬(32 ≤ c.toNat ∧ c.toNat ≤ 126))
    (h9 : c.toNat < 65536) : escChar c = uEsc c.toNat := by
  unfold escChar
  rw [if_neg h1, if_neg h2, if_neg h3, if_neg h4, if_neg h5, if_neg h6, if_neg h7,
    if_neg h8, if_pos h9]

theorem escChar_surr (c : Char) (h1 : c ≠ '"') (h2 : c ≠ '\\') (h3 : c ≠ Char.ofNat 8)
    (h4 : c ≠ Char.ofNat 9) (h5 : c ≠ Char.ofNat 10) (h6 : c ≠ Char.ofNat 12)
    (h7 : c ≠ Char.ofNat 13) (h8 : ¬(32 ≤ c.toNat ∧ c.toNat ≤ 126))
    (h9 : ¬(c.toNat < 65536)) :
    escChar c = uEsc (55296 + (c.toNat - 65536) / 1024) ++
      uEsc (56320 + (c.toNat - 65536) % 1024) := by
  unfold escChar
  rw [if_neg h1, if_neg h2, if_neg h3, if_neg h4, if_neg h5, if_neg h6, if_neg h7,
    if_neg h8, if_neg h9]

theorem psb_escBody (k : List Char) : ∀ (fuel : Nat) (rest : List Char), k.length < fuel →
    parseStringBody fuel ((k.map escChar).flatten ++ '"' :: rest) = some (k, rest) := by
  induction k with
  | nil =>
    intro fuel rest h
    cases fuel with
    | zero => exact absurd h (by simp)
    | succ fuel =>
      simp only [List.map_nil, List.flatten_nil, List.nil_append]
      exact psb_closeQuote fuel rest
  | cons c t ih =>
    intro fuel rest h
    cases fuel with
    | zero => exact absurd h (by simp)
    | succ fuel =>
      have ht : t.length < fuel := by
        simp only [List.length_cons] at h
        omega
      simp only [List.map_cons, List.flatten_cons, List.append_assoc]
      by_cases h1 : c = '"'
      · subst h1
        rw [escChar_quote]
        simp only [List.cons_append, List.nil_append]
        rw [psb_escStep fuel _ _ '"' (pes_short '"' '"' (by decide) (by decide) _)]
        rw [ih fuel rest ht]
        rfl
      by_cases h2 : c = '\\'
      · subst h2
        rw [escChar_bslash]
        simp only [List.cons_append, List.nil_append]
        rw [psb_escStep fuel _ _ '\\' (pes_short '\\' '\\' (by decide) (by decide) _)]
        rw [ih fuel rest ht]
        rfl
      by_cases h3 : c = Char.ofNat 8
      · subst h3
        rw [escChar_bs]
        simp only [List.cons_append, List.nil_append]
        rw [psb_escStep fuel _ _ (Char.ofNat 8) (pes_short 'b' (Char.ofNat 8) (by decide) (by decide) _)]
        rw [ih fuel rest ht]
        rfl
      by_cases h4 : c = Char.ofNat 9
      · subst h4
        rw [escChar_tab]
        simp only [List.cons_append, List.nil_append]
        rw [psb_escStep fuel _ _ (Char.ofNat 9) (pes_short 't' (Char.ofNat 9) (by decide) (by decide) _)]
        rw [ih fuel rest ht]
        rfl
      by_cases h5 : c = Char.ofNat 10
      · subst h5
        rw [escChar_nl]
        simp only [List.cons_append, List.nil_append]
        rw [psb_escStep fuel _ _ (Char.ofNat 10) (pes_short 'n' (Char.ofNat 10) (by decide) (by decide) _)]
        rw [ih fuel rest ht]
        rfl
      by_cases h6 : c = Char.ofNat 12
      · subst h6
        rw [escChar_ff]
        simp only [List.cons_append, List.nil_append]
        rw [psb_escStep fuel _ _ (Char.ofNat 12) (pes_short 'f' (Char.ofNat 12) (by decide) (by decide) _)]
        rw [ih fuel rest ht]
        rfl
      by_cases h7 : c = Char.ofNat 13
      · subst h7
        rw [escChar_cr]
        simp only [List.cons_append, List.nil_append]
        rw [psb_escStep fuel _ _ (Char.ofNat 13) (pes_short 'r' (Char.ofNat 13) (by decide) (by decide) _)]
        rw [ih fuel rest ht]
        rfl
      by_cases h8 : 32 ≤ c.toNat ∧ c.toNat ≤ 126
      · rw [escChar_plain c h1 h2 h8.1 h8.2]
        simp only [List.cons_append, List.nil_append]
        rw [psb_lit fuel c h1 h2 h8.1]
        rw [ih fuel rest ht]
        rfl
      by_cases h9 : c.toNat < 65536
      · rw [escChar_uni c h1 h2 h3 h4 h5 h6 h7 h8 h9]
        have hn : c.toNat < 55296 ∨ (57343 < c.toNat ∧ c.toNat < 65536) := by
          rcases char_scalar c with hv | hv
          · exact Or.inl hv
          · exact Or.inr ⟨hv.1, h9⟩
        have hp := pes_u c.toNat hn ((t.map escChar).flatten ++ '"' :: rest)
        rw [Char.ofNat_toNat] at hp
        simp only [uEsc, List.cons_append, List.append_assoc]
        rw [psb_escStep fuel _ _ c hp]
        rw [ih fuel rest ht]
        rfl
      · rw [escChar_surr c h1 h2 h3 h4 h5 h6 h7 h8 h9]
        have hv2 : c.toNat < 1114112 := by
          rcases char_scalar c with hv | hv
          · omega
          · exact hv.2
        have hp := pes_surr c.toNat (by omega) hv2 ((t.map escChar).flatten ++ '"' :: rest)
        rw [Char.ofNat_toNat] at hp
        simp only [uEsc, List.cons_append, List.append_assoc, List.nil_append]
        rw [psb_escStep fuel _ _ c hp]
        rw [ih fuel rest ht]
        rfl

/-! ## Flat-object container parsing (model of `json.load` restricted to the
container grammar of the spec — one top-level JSON object whose values are
strings — and of `ijson.kvitems(f, '')`, which yields the same key/value
pairs one at a time).  Documents whose top level is not an object of string
values are outside the container format; the model rejects them. -/

/-- Parse `"key" : "value"` pairs separated by commas, up to and including
the closing brace; returns the pairs in document order (duplicates kept)
and the input after the brace.  Fuel bounds recursion depth (one unit per
pair); callers pass more fuel than the input length. -/
def parsePairsAux : Nat → List Char → Option (List (List Char × List Char) × List Char)
  | 0, _ => none
  | fuel + 1, s =>
    (parseJsonString (fuel + 1) s).bind (fun kp =>
      match skipWs kp.2 with
      | ':' :: r3 =>
        (parseJsonString (fuel + 1) (skipWs r3)).bind (fun vp =>
          match skipWs vp.2 with
          | ',' :: r7 => (parsePairsAux fuel (skipWs r7)).map (fun q => ((kp.1, vp.1) :: q.1, q.2))
          | '\x7d' :: r7 => some ([(kp.1, vp.1)], r7)
          | _ => none)
      | _ => none)

/-- Parse a whole container document: insignificant whitespace, one flat
JSON object of string values, nothing but whitespace after it ("Extra
data" is an error, as in `json.load`).  Returns the key/value pairs in
document order, duplicates preserved. -/
def parseContainer (s : List Char) : Option (List (List Char × List Char)) :=
  match skipWs s with
  | c :: r =>
    if c = '\x7b' then
      match skipWs r with
      | d :: r2 =>
        if d = '\x7d' then (if skipWs r2 = [] then some [] else none)
        else
          (parsePairsAux (s.length + 1) (d :: r2)).bind (fun q =>
            if skipWs q.2 = [] then some q.1 else none)
      | [] => none
    else none
  | [] => none

/-! ## The packer (`pack`, `src/Main.py` lines 22-63) -/

/-- One archive member: a name and a byte payload.  Following
`zipfile.ZipInfo.is_dir`, whether a member is a directory is derived from
its name (a trailing `/`). -/
structure ZipEntry where
  filename : List Char
  content : List Nat
deriving DecidableEq

/-- `ZipInfo.is_dir()`: the filename ends with a slash. -/
def isDirName (s : List Char) : Bool :=
  match s.getLast? with
  | some c => c = '/'
  | none => false

/-- The key/value pairs `pack` emits: non-directory members in archive
enumeration order, each value the base64 of the member's bytes (lines
38-44). -/
def packEntries (ar : List ZipEntry) : List (List Char × List Char) :=
  (ar.filter (fun e => !isDirName e.filename)).map (fun e => (e.filename, b64encode e.content))

/-- The text written for one pair: `json.dumps(name)` + `:"` + base64 + `"`
(lines 52-53). -/
def renderPair (k v : List Char) : List Char :=
  jsonDumps k ++ ':' :: '"' :: (v ++ ['"'])

/-- The text between the braces: the first pair unprefixed, every later
pair preceded by a comma (lines 36, 47-49). -/
def packBody : List (List Char × List Char) → List Char
  | [] => []
  | p :: ps => renderPair p.1 p.2 ++ (ps.map (fun q => ',' :: renderPair q.1 q.2)).flatten

/-- The full document `pack` writes: `{`, the pairs, `}` (lines 35, 61). -/
def packDoc (ar : List ZipEntry) : List Char :=
  '\x7b' :: (packBody (packEntries ar) ++ ['\x7d'])

/-- The `file_count` value `pack` reports (lines 32, 54, 63). -/
def packCount (ar : List ZipEntry) : Nat := (packEntries ar).length

theorem skipWs_cons (c : Char) (r : List Char) (h : isJsonWs c = false) :
    skipWs (c :: r) = c :: r := by
  simp [skipWs, List.dropWhile_cons, h]

theorem pjs_quote (fuel : Nat) (s : List Char) :
    parseJsonString fuel ('"' :: s) = parseStringBody fuel s := rfl

theorem pjs_dumps (k : List Char) (fuel : Nat) (rest : List Char) (h : k.length < fuel) :
    parseJsonString fuel (jsonDumps k ++ rest) = some (k, rest) := by
  simp only [jsonDumps, List.cons_append, List.append_assoc, List.singleton_append]
  rw [pjs_quote]
  exact psb_escBody k fuel rest h

theorem psb_plain (v : List Char) : ∀ (fuel : Nat) (rest : List Char),
    (∀ c ∈ v, plainChar c) → v.length < fuel →
    parseStringBody fuel (v ++ '"' :: rest) = some (v, rest) := by
  induction v with
  | nil =>
    intro fuel rest _ h
    cases fuel with
    | zero => exact absurd h (by simp)
    | succ fuel =>
      simp only [List.nil_append]
      exact psb_closeQuote fuel rest
  | cons c t ih =>
    intro fuel rest hp h
    cases fuel with
    | zero => exact absurd h (by simp)
    | succ fuel =>
      obtain ⟨hc1, hc2, hc3, hc4⟩ := hp c (by simp)
      simp only [List.cons_append]
      rw [psb_lit fuel c hc3 hc4 hc1]
      rw [ih fuel rest (fun x hx => hp x (by simp [hx])) (by simp at h; omega)]
      rfl

theorem b64Table_plain (n : Nat) : plainChar (b64Table n) := by
  rcases Nat.lt_or_ge n 64 with h | h
  · have : ∀ m : Fin 64, plainChar (b64Table m.val) := by decide
    exact this ⟨n, h⟩
  · have hlen : b64Alphabet.length ≤ n := by
      have : b64Alphabet.length = 64 := by decide
      omega
    unfold b64Table
    rw [List.getD_eq_default _ _ hlen]
    decide

theorem b64encode_plain (b : List Nat) : ∀ c ∈ b64encode b, plainChar c := by
  induction b using b64encode.induct with
  | case1 => simp [b64encode]
  | case2 b1 =>
    simp only [b64encode, List.mem_cons, List.not_mem_nil, or_false]
    rintro c (rfl | rfl | rfl | rfl) <;> first | exact b64Table_plain _ | decide
  | case3 b1 b2 =>
    simp only [b64encode, List.mem_cons, List.not_mem_nil, or_false]
    rintro c (rfl | rfl | rfl | rfl) <;> first | exact b64Table_plain _ | decide
  | case4 b1 b2 b3 rest ih =>
    simp only [b64encode, List.mem_cons]
    rintro c (rfl | rfl | rfl | rfl | hc) <;>
      first | exact b64Table_plain _ | exact ih c hc

theorem ppa_single (k v : List Char) (fuel : Nat) (rest : List Char)
    (hk : k.length < fuel + 1) (hv : v.length < fuel + 1) (hp : ∀ c ∈ v, plainChar c) :
    parsePairsAux (fuel + 1) (renderPair k v ++ '\x7d' :: rest) = some ([(k, v)], rest) := by
  simp only [parsePairsAux, renderPair, List.append_assoc, List.cons_append,
    List.singleton_append]
  rw [pjs_dumps k (fuel + 1) _ hk]
  simp only [Option.some_bind]
  rw [skipWs_cons ':' _ (by decide)]
  simp only []
  rw [skipWs_cons '"' _ (by decide)]
  rw [pjs_quote, psb_plain v (fuel + 1) _ hp hv]
  simp only [Option.some_bind, List.nil_append]
  rw [skipWs_cons '\x7d' _ (by decide)]
  rfl

theorem skipWs_render (k v X : List Char) :
    skipWs (renderPair k v ++ X) = renderPair k v ++ X := by
  simp only [renderPair, jsonDumps, List.cons_append, List.append_assoc]
  exact skipWs_cons '"' _ (by decide)

theorem ppa_render (ps : List (List Char × List Char)) :
    ∀ (p : List Char × List Char) (fuel : Nat) (rest : List Char),
    (∀ q ∈ p :: ps, q.1.length + (p :: ps).length ≤ fuel ∧
      q.2.length + (p :: ps).length ≤ fuel ∧ (∀ c ∈ q.2, plainChar c)) →
    parsePairsAux fuel
      (renderPair p.1 p.2 ++
        ((ps.map (fun q => ',' :: renderPair q.1 q.2)).flatten ++ '\x7d' :: rest)) =
      some (p :: ps, rest) := by
  induction ps with
  | nil =>
    intro p fuel rest hb
    obtain ⟨hk, hv, hp⟩ := hb p (by simp)
    cases fuel with
    | zero => simp at hk
    | succ fuel =>
      simp only [List.map_nil, List.flatten_nil, List.nil_append]
      exact ppa_single p.1 p.2 fuel rest (by simp at hk; omega) (by simp at hv; omega) hp
  | cons q qs ih =>
    intro p fuel rest hb
    obtain ⟨hk, hv, hp⟩ := hb p (by simp)
    cases fuel with
    | zero => simp at hk
    | succ fuel =>
      simp only [List.map_cons, List.flatten_cons, List.append_assoc, List.cons_append]
      simp only [parsePairsAux, renderPair, List.append_assoc, List.cons_append,
        List.singleton_append]
      rw [pjs_dumps p.1 (fuel + 1) _ (by simp only [List.length_cons] at hk; omega)]
      simp only [Option.some_bind]
      rw [skipWs_cons ':' _ (by decide)]
      simp only []
      rw [skipWs_cons '"' _ (by decide)]
      rw [pjs_quote, psb_plain p.2 (fuel + 1) _ hp
        (by simp only [List.length_cons] at hv; omega)]
      simp only [Option.some_bind, List.nil_append]
      rw [skipWs_cons ',' _ (by decide)]
      simp only []
      have hr7 : skipWs (renderPair q.1 q.2 ++
          ((qs.map (fun r => ',' :: renderPair r.1 r.2)).flatten ++ '\x7d' :: rest)) =
          renderPair q.1 q.2 ++
          ((qs.map (fun r => ',' :: renderPair r.1 r.2)).flatten ++ '\x7d' :: rest) :=
        skipWs_render q.1 q.2 _
      simp only [renderPair, List.append_assoc, List.cons_append, List.singleton_append,
        List.nil_append] at hr7
      rw [hr7]
      have hbq : ∀ r ∈ q :: qs, r.1.length + (q :: qs).length ≤ fuel ∧
          r.2.length + (q :: qs).length ≤ fuel ∧ (∀ c ∈ r.2, plainChar c) := by
        intro r hr
        obtain ⟨h1, h2, h3⟩ := hb r (List.mem_cons_of_mem p hr)
        simp only [List.length_cons] at h1 h2 ⊢
        exact ⟨by omega, by omega, h3⟩
      have hq := ih q fuel rest hbq
      simp only [renderPair, List.append_assoc, List.cons_append, List.singleton_append,
        List.nil_append] at hq
      rw [hq]
      rfl

theorem escChar_len (c : Char) : 1 ≤ (escChar c).length := by
  unfold escChar
  split_ifs <;> simp [uEsc, toHex4]

theorem escBody_len (k : List Char) : k.length ≤ ((k.map escChar).flatten).length := by
  induction k with
  | nil => simp
  | cons c t ih =>
    simp only [List.map_cons, List.flatten_cons, List.length_append, List.length_cons]
    have := escChar_len c
    omega

theorem renderPair_klen (k v : List Char) : k.length + 1 ≤ (renderPair k v).length := by
  have := escBody_len k
  simp only [renderPair, jsonDumps, List.length_append, List.length_cons,
    List.length_singleton]
  omega

theorem renderPair_vlen (k v : List Char) : v.length + 1 ≤ (renderPair k v).length := by
  simp only [renderPair, jsonDumps, List.length_append, List.length_cons,
    List.length_singleton]
  omega

theorem commaChain_len (ps : List (List Char × List Char)) :
    ps.length ≤ ((ps.map (fun r => ',' :: renderPair r.1 r.2)).flatten).length := by
  induction ps with
  | nil => simp
  | cons q qs ih =>
    simp only [List.map_cons, List.flatten_cons, List.length_append, List.length_cons]
    omega

theorem commaChain_bound (ps : List (List Char × List Char)) :
    ∀ q ∈ ps, q.1.length + ps.length ≤
        ((ps.map (fun r => ',' :: renderPair r.1 r.2)).flatten).length ∧
      q.2.length + ps.length ≤
        ((ps.map (fun r => ',' :: renderPair r.1 r.2)).flatten).length := by
  induction ps with
  | nil => simp
  | cons q qs ih =>
    intro r hr
    simp only [List.map_cons, List.flatten_cons, List.length_append, List.length_cons]
    rcases List.mem_cons.mp hr with rfl | hr
    · have h1 := renderPair_klen r.1 r.2
      have h2 := renderPair_vlen r.1 r.2
      have h3 := commaChain_len qs
      constructor <;> omega
    · obtain ⟨h1, h2⟩ := ih r hr
      have h3 := renderPair_klen q.1 q.2
      constructor <;> omega

theorem packBody_bound (es : List (List Char × List Char)) :
    ∀ q ∈ es, q.1.length + es.length ≤ (packBody es).length ∧
      q.2.length + es.length ≤ (packBody es).length := by
  cases es with
  | nil => simp
  | cons p ps =>
    intro r hr
    simp only [packBody, List.length_append, List.length_cons]
    rcases List.mem_cons.mp hr with rfl | hr
    · have h1 := renderPair_klen r.1 r.2
      have h2 := renderPair_vlen r.1 r.2
      have h3 := commaChain_len ps
      constructor <;> omega
    · obtain ⟨h1, h2⟩ := commaChain_bound ps r hr
      have h3 := renderPair_klen p.1 p.2
      constructor <;> omega

theorem packEntries_plain (ar : List ZipEntry) :
    ∀ q ∈ packEntries ar, ∀ c ∈ q.2, plainChar c := by
  intro q hq
  obtain ⟨e, _, rfl⟩ := List.mem_map.mp hq
  exact b64encode_plain e.content

theorem parseContainer_packDoc (ar : List ZipEntry) :
    parseContainer (packDoc ar) = some (packEntries ar) := by
  cases hes : packEntries ar with
  | nil =>
    unfold packDoc
    rw [hes]
    rfl
  | cons p ps =>
    have hplain : ∀ q ∈ p :: ps, ∀ c ∈ q.2, plainChar c := by
      rw [← hes]
      exact packEntries_plain ar
    unfold packDoc parseContainer
    rw [hes]
    set F := ('\x7b' :: (packBody (p :: ps) ++ ['\x7d'])).length + 1 with hF
    have hFlen : F = (packBody (p :: ps)).length + 3 := by
      rw [hF]
      simp
    rw [skipWs_cons '\x7b' _ (by decide)]
    simp only [if_true]
    have hbody : packBody (p :: ps) ++ ['\x7d'] =
        renderPair p.1 p.2 ++
          ((ps.map (fun q => ',' :: renderPair q.1 q.2)).flatten ++ '\x7d' :: ([] : List Char)) := by
      simp [packBody, List.append_assoc]
    rw [hbody]
    rw [skipWs_render p.1 p.2 _]
    have hT : renderPair p.1 p.2 ++
        ((ps.map (fun q => ',' :: renderPair q.1 q.2)).flatten ++ '\x7d' :: ([] : List Char)) =
        '"' :: (((p.1.map escChar).flatten ++ ['"']) ++ ((':' :: '"' :: (p.2 ++ ['"'])) ++
          ((ps.map (fun q => ',' :: renderPair q.1 q.2)).flatten ++ '\x7d' :: ([] : List Char)))) := by
      simp [renderPair, jsonDumps, List.cons_append, List.append_assoc]
    rw [hT]
    simp only []
    rw [if_neg (by decide)]
    rw [← hT]
    have hfuel : ∀ q ∈ p :: ps,
        q.1.length + (p :: ps).length ≤ F ∧ q.2.length + (p :: ps).length ≤ F ∧
        (∀ c ∈ q.2, plainChar c) := by
      intro q hq
      obtain ⟨h1, h2⟩ := packBody_bound (p :: ps) q hq
      exact ⟨by omega, by omega, hplain q hq⟩
    rw [ppa_render ps p F [] hfuel]
    simp [skipWs]

/-! ## Filesystem model and the unpacker (`unpack`, `src/Main.py` lines 66-115)

The filesystem records written binary files, written text files and created
directories.  `os.path.join` and `os.path.dirname` follow the POSIX
convention.  Idealisations: write errors (permissions, a destination that is
an existing directory, an empty `makedirs` argument) are not modelled, and a
streaming parse that fails midway is modelled as a whole-operation failure
without the files written before the error (no verified property depends on
either corner). -/

/-- Insert or overwrite a path/value association, keeping first-insertion
order (the semantics both of writing a file at a path and of building a
Python `dict` from key/value pairs, where a duplicate key keeps its first
position and takes the last value). -/
def setEntry {α : Type} : List (List Char × α) → List Char → α → List (List Char × α)
  | [], p, c => [(p, c)]
  | (q, d) :: t, p, c => if q = p then (p, c) :: t else (q, d) :: setEntry t p c

/-- Look up a path. -/
def getEntry {α : Type} : List (List Char × α) → List Char → Option α
  | [], _ => none
  | (q, d) :: t, p => if q = p then some d else getEntry t p

/-- The filesystem state. -/
structure FS where
  files : List (List Char × List Nat)
  texts : List (List Char × List Char)
  dirs : List (List Char)
deriving DecidableEq

/-- `os.path.join(a, b)` for POSIX paths: an absolute `b` discards `a`. -/
def osJoin (a b : List Char) : List Char :=
  if b.head? = some '/' then b
  else if a = [] then b
  else if a.getLast? = some '/' then a ++ b
  else a ++ '/' :: b

/-- `os.path.dirname(p)` for POSIX paths: everything up to the last slash,
trailing slashes stripped unless the head is all slashes. -/
def dirname (p : List Char) : List Char :=
  let rev := p.reverse
  let base := rev.takeWhile (fun c => c ≠ '/')
  let head := (rev.drop base.length).reverse
  if head.all (fun c => c = '/') then head
  else (head.reverse.dropWhile (fun c => c = '/')).reverse

/-- The directories `os.makedirs(p, exist_ok=True)` creates: `p` and its
missing ancestors.  Fuel bounds the ancestor chain; `p.length + 1` always
suffices since `dirname` shortens a path until it reaches `[]` or a fixed
point such as `/`. -/
def mkdirChain : Nat → List Char → List (List Char)
  | 0, _ => []
  | fuel + 1, p =>
    if p = [] then []
    else p :: (if dirname p = p then [] else mkdirChain fuel (dirname p))

/-- `os.makedirs(p, exist_ok=True)` on the filesystem state. -/
def makedirs (fs : FS) (p : List Char) : FS :=
  { fs with dirs := mkdirChain (p.length + 1) p ++ fs.dirs }

/-- Write a binary file, overwriting any existing file at that path. -/
def writeFile (fs : FS) (p : List Char) (c : List Nat) : FS :=
  { fs with files := setEntry fs.files p c }

/-- `pack(zip_path, lica_path)` (lines 22-63): `zf` is the result of
`zipfile.ZipFile(zip_path)` (`none` when opening raised).  On an open
failure the error is reported and `pack` returns before `open(lica_path,
'w')` runs, so the filesystem is untouched; otherwise the container
document is written at `lica_path` and the file count reported. -/
def pack (zf : Option (List ZipEntry)) (fs : FS) (licaPath : List Char) : FS × Option Nat :=
  match zf with
  | none => (fs, none)
  | some ar => ({ fs with texts := setEntry fs.texts licaPath (packDoc ar) }, some (packCount ar))

/-- The per-entry loop of streaming unpack (lines 80-91): decode the value
(a failure is caught, reported and skips the entry), join the key onto the
output directory, create the missing ancestor directories of the
destination's dirname, write the file, count the success. -/
def streamLoop (outDir : List Char) : FS → List (List Char × List Char) → FS × Nat
  | fs, [] => (fs, 0)
  | fs, (k, v) :: ps =>
    match b64decode v with
    | none => streamLoop outDir fs ps
    | some content =>
      let full := osJoin outDir k
      let fs2 := writeFile (makedirs fs (dirname full)) full content
      let r := streamLoop outDir fs2 ps
      (r.1, r.2 + 1)

/-- The per-entry loop of bulk unpack (lines 104-114); same steps as the
streaming loop. -/
def bulkLoop (outDir : List Char) : FS → List (List Char × List Char) → FS × Nat
  | fs, [] => (fs, 0)
  | fs, (k, v) :: ps =>
    match b64decode v with
    | none => bulkLoop outDir fs ps
    | some content =>
      let full := osJoin outDir k
      let fs2 := writeFile (makedirs fs (dirname full)) full content
      let r := bulkLoop outDir fs2 ps
      (r.1, r.2 + 1)

/-- `dict`-construction from parsed pairs, as `json.load` produces before
`data.items()` iterates it: last value wins, first position kept. -/
def jsonObjOfPairs (ps : List (List Char × List Char)) : List (List Char × List Char) :=
  ps.foldl (fun d p => setEntry d p.1 p.2) []

/-- The streaming branch of `unpack` (lines 74-94): open and parse the
container incrementally via `ijson.kvitems`; on success process each pair
and report the count, on failure report the error (`none`). -/
def unpackStreamBody (content : Option (List Char)) (fs : FS) (outDir : List Char) :
    FS × Option Nat :=
  match content with
  | none => (fs, none)
  | some s =>
    match parseContainer s with
    | none => (fs, none)
    | some ps =>
      let r := streamLoop outDir fs ps
      (r.1, some r.2)

/-- The bulk branch of `unpack` (lines 95-115): `json.load` the whole
container (an open or parse failure is reported and returns before any
file is written), then process the dict's items. -/
def unpackBulkBody (content : Option (List Char)) (fs : FS) (outDir : List Char) :
    FS × Option Nat :=
  match content with
  | none => (fs, none)
  | some s =>
    match parseContainer s with
    | none => (fs, none)
    | some ps =>
      let r := bulkLoop outDir fs (jsonObjOfPairs ps)
      (r.1, some r.2)

/-- `unpack(lica_path, output_dir, use_stream)` (lines 66-115): create the
output directory, then dispatch once on `use_stream and HAS_IJSON` —
streaming when both hold, bulk otherwise (the fallback when `ijson` is
absent).  `content` is the container file's content (`none` when opening
raised). -/
def unpack (useStream hasIjson : Bool) (content : Option (List Char)) (fs : FS)
    (outDir : List Char) : FS × Option Nat :=
  let fs1 := makedirs fs outDir
  if useStream && hasIjson then unpackStreamBody content fs1 outDir
  else unpackBulkBody content fs1 outDir

/-! ## Loop lemmas -/

theorem stream_eq_bulkLoop (outDir : List Char) (fs : FS)
    (ps : List (List Char × List Char)) : streamLoop outDir fs ps = bulkLoop outDir fs ps := by
  induction ps generalizing fs with
  | nil => rfl
  | cons p ps ih =>
    obtain ⟨k, v⟩ := p
    cases hdec : b64decode v with
    | none => simp only [streamLoop, bulkLoop, hdec]; exact ih fs
    | some content => simp only [streamLoop, bulkLoop, hdec]; rw [ih]

theorem streamLoop_count (outDir : List Char) (fs : FS)
    (ps : List (List Char × List Char)) :
    (streamLoop outDir fs ps).2 =
      (ps.filter (fun p => (b64decode p.2).isSome)).length := by
  induction ps generalizing fs with
  | nil => rfl
  | cons p ps ih =>
    obtain ⟨k, v⟩ := p
    cases hdec : b64decode v with
    | none => simp [streamLoop, List.filter_cons, hdec, ih]
    | some content => simp [streamLoop, List.filter_cons, hdec, ih]

theorem getEntry_setEntry_same {α : Type} (d : List (List Char × α)) (p : List Char) (c : α) :
    getEntry (setEntry d p c) p = some c := by
  induction d with
  | nil => simp [setEntry, getEntry]
  | cons q t ih =>
    obtain ⟨qp, qv⟩ := q
    simp only [setEntry]
    by_cases h : qp = p
    · rw [if_pos h]
      simp [getEntry]
    · rw [if_neg h]
      simp only [getEntry]
      rw [if_neg h]
      exact ih

theorem getEntry_setEntry_other {α : Type} (d : List (List Char × α)) (p q : List Char)
    (c : α) (h : q ≠ p) : getEntry (setEntry d p c) q = getEntry d q := by
  induction d with
  | nil =>
    simp only [setEntry, getEntry]
    rw [if_neg (fun e : p = q => h e.symm)]
  | cons e t ih =>
    obtain ⟨ep, ev⟩ := e
    simp only [setEntry]
    by_cases he : ep = p
    · subst he
      rw [if_pos rfl]
      simp only [getEntry]
      rw [if_neg (fun hpq : ep = q => h hpq.symm)]
      rw [if_neg (fun hpq : ep = q => h hpq.symm)]
    · rw [if_neg he]
      simp only [getEntry]
      by_cases hq : ep = q
      · rw [if_pos hq, if_pos hq]
      · rw [if_neg hq, if_neg hq]
        exact ih

theorem makedirs_files (fs : FS) (p : List Char) : (makedirs fs p).files = fs.files := rfl

theorem writeFile_files (fs : FS) (p : List Char) (c : List Nat) :
    (writeFile fs p c).files = setEntry fs.files p c := rfl

theorem streamLoop_files_frame (outDir : List Char) (ps : List (List Char × List Char))
    (p : List Char) (h : p ∉ ps.map (fun q => osJoin outDir q.1)) :
    ∀ fs : FS, getEntry (streamLoop outDir fs ps).1.files p = getEntry fs.files p := by
  induction ps with
  | nil => intro fs; rfl
  | cons q ps ih =>
    intro fs
    obtain ⟨k, v⟩ := q
    rw [List.map_cons, List.mem_cons] at h
    push_neg at h
    obtain ⟨h1, h2⟩ := h
    cases hdec : b64decode v with
    | none =>
      simp only [streamLoop, hdec]
      exact ih h2 fs
    | some c =>
      simp only [streamLoop, hdec]
      rw [ih h2 _]
      simp only [writeFile_files, makedirs_files]
      exact getEntry_setEntry_other _ _ _ _ h1

theorem streamLoop_files_hit (outDir : List Char) (ps : List (List Char × List Char))
    (k v : List Char) (c : List Nat)
    (hnd : (ps.map (fun q => osJoin outDir q.1)).Nodup)
    (hmem : (k, v) ∈ ps) (hdec : b64decode v = some c) :
    ∀ fs : FS, getEntry (streamLoop outDir fs ps).1.files (osJoin outDir k) = some c := by
  induction ps with
  | nil => cases hmem
  | cons q ps ih =>
    intro fs
    rw [List.map_cons, List.nodup_cons] at hnd
    obtain ⟨hq1, hq2⟩ := hnd
    rcases List.mem_cons.mp hmem with heq | hmem'
    · subst heq
      simp only [streamLoop, hdec]
      rw [streamLoop_files_frame outDir ps _ hq1 _]
      simp only [writeFile_files, makedirs_files]
      exact getEntry_setEntry_same _ _ _
    · obtain ⟨k', v'⟩ := q
      cases hdec' : b64decode v' with
      | none =>
        simp only [streamLoop, hdec']
        exact ih hq2 hmem' fs
      | some c' =>
        simp only [streamLoop, hdec']
        exact ih hq2 hmem' _

theorem streamLoop_files_miss (outDir : List Char) (ps : List (List Char × List Char))
    (k v : List Char)
    (hnd : (ps.map (fun q => osJoin outDir q.1)).Nodup)
    (hmem : (k, v) ∈ ps) (hdec : b64decode v = none) :
    ∀ fs : FS, getEntry (streamLoop outDir fs ps).1.files (osJoin outDir k) =
      getEntry fs.files (osJoin outDir k) := by
  induction ps with
  | nil => cases hmem
  | cons q ps ih =>
    intro fs
    rw [List.map_cons, List.nodup_cons] at hnd
    obtain ⟨hq1, hq2⟩ := hnd
    rcases List.mem_cons.mp hmem with heq | hmem'
    · subst heq
      simp only [streamLoop, hdec]
      exact streamLoop_files_frame outDir ps _ hq1 fs
    · obtain ⟨k', v'⟩ := q
      cases hdec' : b64decode v' with
      | none =>
        simp only [streamLoop, hdec']
        exact ih hq2 hmem' fs
      | some c' =>
        simp only [streamLoop, hdec']
        rw [ih hq2 hmem' _]
        simp only [writeFile_files, makedirs_files]
        refine getEntry_setEntry_other _ _ _ _ ?_
        intro e
        exact hq1 (e ▸ List.mem_map_of_mem (fun q => osJoin outDir q.1) hmem')

theorem streamLoop_dirs_mono (outDir : List Char) (ps : List (List Char × List Char))
    (d : List Char) : ∀ fs : FS, d ∈ fs.dirs → d ∈ (streamLoop outDir fs ps).1.dirs := by
  induction ps with
  | nil => intro fs h; exact h
  | cons q ps ih =>
    intro fs h
    obtain ⟨k, v⟩ := q
    cases hdec : b64decode v with
    | none =>
      simp only [streamLoop, hdec]
      exact ih fs h
    | some c =>
      simp only [streamLoop, hdec]
      refine ih _ ?_
      simp only [writeFile, makedirs, List.mem_append]
      exact Or.inr h

theorem streamLoop_dirs_entry (outDir : List Char) (ps : List (List Char × List Char))
    (k v : List Char) (hmem : (k, v) ∈ ps) (hdec : (b64decode v).isSome) (d : List Char)
    (hd : d ∈ mkdirChain ((dirname (osJoin outDir k)).length + 1) (dirname (osJoin outDir k))) :
    ∀ fs : FS, d ∈ (streamLoop outDir fs ps).1.dirs := by
  induction ps with
  | nil => cases hmem
  | cons q ps ih =>
    intro fs
    rcases List.mem_cons.mp hmem with heq | hmem'
    · subst heq
      obtain ⟨c, hc⟩ := Option.isSome_iff_exists.mp hdec
      simp only [streamLoop, hc]
      refine streamLoop_dirs_mono outDir ps d _ ?_
      simp only [writeFile, makedirs, List.mem_append]
      exact Or.inl hd
    · obtain ⟨k', v'⟩ := q
      cases hdec' : b64decode v' with
      | none =>
        simp only [streamLoop, hdec']
        exact ih hmem' fs
      | some c' =>
        simp only [streamLoop, hdec']
        exact ih hmem' _

theorem getEntry_setEntry_isSome {α : Type} (d : List (List Char × α)) (p q : List Char)
    (c : α) (h : (getEntry d q).isSome) : (getEntry (setEntry d p c) q).isSome := by
  by_cases e : q = p
  · subst e
    rw [getEntry_setEntry_same]
    rfl
  · rw [getEntry_setEntry_other _ _ _ _ e]
    exact h

theorem streamLoop_files_isSome_mono (outDir : List Char) (ps : List (List Char × List Char))
    (p : List Char) : ∀ fs : FS, (getEntry fs.files p).isSome →
      (getEntry (streamLoop outDir fs ps).1.files p).isSome := by
  induction ps with
  | nil => intro fs h; exact h
  | cons q ps ih =>
    intro fs h
    obtain ⟨k, v⟩ := q
    cases hdec : b64decode v with
    | none =>
      simp only [streamLoop, hdec]
      exact ih fs h
    | some c =>
      simp only [streamLoop, hdec]
      refine ih _ ?_
      simp only [writeFile_files, makedirs_files]
      exact getEntry_setEntry_isSome _ _ _ _ h

theorem streamLoop_files_written (outDir : List Char) (ps : List (List Char × List Char))
    (k v : List Char) (hmem : (k, v) ∈ ps) (hdec : (b64decode v).isSome) :
    ∀ fs : FS, (getEntry (streamLoop outDir fs ps).1.files (osJoin outDir k)).isSome := by
  induction ps with
  | nil => cases hmem
  | cons q ps ih =>
    intro fs
    rcases List.mem_cons.mp hmem with heq | hmem'
    · subst heq
      obtain ⟨c, hc⟩ := Option.isSome_iff_exists.mp hdec
      simp only [streamLoop, hc]
      refine streamLoop_files_isSome_mono outDir ps _ _ ?_
      simp only [writeFile_files, makedirs_files]
      rw [getEntry_setEntry_same]
      rfl
    · obtain ⟨k', v'⟩ := q
      cases hdec' : b64decode v' with
      | none =>
        simp only [streamLoop, hdec']
        exact ih hmem' fs
      | some c' =>
        simp only [streamLoop, hdec']
        exact ih hmem' _

theorem setEntry_fresh {α : Type} (d : List (List Char × α)) (k : List Char) (v : α)
    (h : k ∉ d.map Prod.fst) : setEntry d k v = d ++ [(k, v)] := by
  induction d with
  | nil => rfl
  | cons q t ih =>
    obtain ⟨qp, qv⟩ := q
    rw [List.map_cons, List.mem_cons] at h
    push_neg at h
    obtain ⟨h1, h2⟩ := h
    simp only [setEntry]
    rw [if_neg (fun e => h1 e.symm)]
    rw [ih h2]
    rfl

theorem jsonObj_aux (ps : List (List Char × List Char)) :
    ∀ acc : List (List Char × List Char), ((acc ++ ps).map Prod.fst).Nodup →
    ps.foldl (fun d p => setEntry d p.1 p.2) acc = acc ++ ps := by
  induction ps with
  | nil => intro acc _; simp
  | cons p ps ih =>
    intro acc h
    simp only [List.foldl_cons]
    have hfresh : p.1 ∉ acc.map Prod.fst := by
      simp only [List.map_append, List.map_cons, List.nodup_append] at h
      intro hmem
      exact h.2.2 hmem (by simp)
    rw [setEntry_fresh acc p.1 p.2 hfresh]
    have hrec := ih (acc ++ [p]) (by simpa using h)
    simp only [List.append_assoc, List.singleton_append] at hrec
    simpa using hrec

theorem jsonObjOfPairs_nodup (ps : List (List Char × List Char))
    (h : (ps.map Prod.fst).Nodup) : jsonObjOfPairs ps = ps := by
  have := jsonObj_aux ps [] (by simpa using h)
  simpa [jsonObjOfPairs] using this

/-- With a container that parses to pairs with distinct keys, both unpack
modes reduce to the same per-entry loop over those pairs, started after the
output directory has been created. -/
theorem unpack_parsed (s : List Char) (ps : List (List Char × List Char))
    (us hi : Bool) (fs : FS) (outDir : List Char)
    (hp : parseContainer s = some ps) (hnd : (ps.map Prod.fst).Nodup) :
    unpack us hi (some s) fs outDir =
      ((streamLoop outDir (makedirs fs outDir) ps).1,
       some (streamLoop outDir (makedirs fs outDir) ps).2) := by
  unfold unpack unpackStreamBody unpackBulkBody
  dsimp only
  rw [hp]
  cases us <;> cases hi <;>
    simp [jsonObjOfPairs_nodup ps hnd, stream_eq_bulkLoop]

/-- For a nonempty output directory and a relative key, `os.path.join` is a
fixed prefix followed by the key. -/
theorem osJoin_fixed (outDir : List Char) (ho : outDir ≠ []) (k : List Char)
    (hk : k.head? ≠ some '/') :
    osJoin outDir k =
      (if outDir.getLast? = some '/' then outDir else outDir ++ ['/']) ++ k := by
  unfold osJoin
  rw [if_neg hk, if_neg ho]
  by_cases hl : outDir.getLast? = some '/'
  · rw [if_pos hl, if_pos hl]
  · rw [if_neg hl, if_neg hl]
    simp

theorem osJoin_inj (outDir : List Char) (ho : outDir ≠ []) (x y : List Char)
    (hx : x.head? ≠ some '/') (hy : y.head? ≠ some '/')
    (h : osJoin outDir x = osJoin outDir y) : x = y := by
  rw [osJoin_fixed outDir ho x hx, osJoin_fixed outDir ho y hy] at h
  exact List.append_cancel_left h

theorem ppa_single_dumps (k v : List Char) (fuel : Nat) (rest : List Char)
    (hk : k.length < fuel + 1) (hv : v.length < fuel + 1) :
    parsePairsAux (fuel + 1) (jsonDumps k ++ (':' :: (jsonDumps v ++ '\x7d' :: rest))) =
      some ([(k, v)], rest) := by
  simp only [parsePairsAux]
  rw [pjs_dumps k (fuel + 1) _ hk]
  simp only [Option.some_bind]
  rw [skipWs_cons ':' _ (by decide)]
  simp only []
  have hsw : skipWs (jsonDumps v ++ '\x7d' :: rest) = jsonDumps v ++ '\x7d' :: rest := by
    simp only [jsonDumps, List.cons_append]
    exact skipWs_cons '"' _ (by decide)
  rw [hsw]
  rw [pjs_dumps v (fuel + 1) _ hv]
  simp only [Option.some_bind]
  rw [skipWs_cons '\x7d' _ (by decide)]
  rfl

theorem parseContainer_single (k v : List Char) :
    parseContainer ('\x7b' :: (jsonDumps k ++ ':' :: (jsonDumps v ++ ['\x7d']))) =
      some [(k, v)] := by
  unfold parseContainer
  rw [skipWs_cons '\x7b' _ (by decide)]
  simp only [if_true]
  have hsw : skipWs (jsonDumps k ++ ':' :: (jsonDumps v ++ ['\x7d'])) =
      jsonDumps k ++ ':' :: (jsonDumps v ++ ['\x7d']) := by
    simp only [jsonDumps, List.cons_append]
    exact skipWs_cons '"' _ (by decide)
  rw [hsw]
  have hT : jsonDumps k ++ ':' :: (jsonDumps v ++ ['\x7d']) =
      '"' :: (((k.map escChar).flatten ++ ['"']) ++ (':' :: (jsonDumps v ++ ['\x7d']))) := by
    simp [jsonDumps, List.cons_append, List.append_assoc]
  rw [hT]
  simp only []
  rw [if_neg (by decide)]
  rw [← hT]
  have hk : k.length <
      ('\x7b' :: (jsonDumps k ++ ':' :: (jsonDumps v ++ ['\x7d']))).length + 1 := by
    have := escBody_len k
    simp only [jsonDumps, List.length_cons, List.length_append, List.length_singleton]
    omega
  have hv : v.length <
      ('\x7b' :: (jsonDumps k ++ ':' :: (jsonDumps v ++ ['\x7d']))).length + 1 := by
    have := escBody_len v
    simp only [jsonDumps, List.length_cons, List.length_append, List.length_singleton]
    omega
  rw [ppa_single_dumps k v _ [] hk hv]
  simp [skipWs]

/-! ## Claim theorems -/

/-- C2: for every archive, `pack` emits one syntactically valid flat JSON
object — `{`, then for each non-directory member in enumeration order the
pair `<escaped name>:"<base64>"` with a comma before every pair except the
first, then `}` — and the key order of the parsed document equals the
archive's enumeration order of non-directory members. -/
theorem c2_pack_valid_flat_json (ar : List ZipEntry) :
    parseContainer (packDoc ar) = some (packEntries ar) ∧
    (packEntries ar).map Prod.fst =
      (ar.filter (fun e => !isDirName e.filename)).map ZipEntry.filename := by
  refine ⟨parseContainer_packDoc ar, ?_⟩
  simp only [packEntries, List.map_map]
  rfl

/-- C5: an archive with zero non-directory members (in particular one whose
members are all directories) packs to exactly the two characters of an
empty JSON object with a reported count of 0; directory members are never
encoded and never counted. -/
theorem c5_empty_and_dirs (ar : List ZipEntry) :
    ((∀ e ∈ ar, isDirName e.filename = true) →
      packDoc ar = ['\x7b', '\x7d'] ∧ packCount ar = 0) ∧
    packEntries ar = packEntries (ar.filter (fun e => !isDirName e.filename)) ∧
    packCount ar = (ar.filter (fun e => !isDirName e.filename)).length := by
  refine ⟨?_, ?_, ?_⟩
  · intro h
    have hfil : ar.filter (fun e => !isDirName e.filename) = [] := by
      rw [List.filter_eq_nil_iff]
      intro e he
      simp [h e he]
    constructor
    · simp [packDoc, packBody, packEntries, hfil]
    · simp [packCount, packEntries, hfil]
  · simp [packEntries, List.filter_filter]
  · simp [packCount, packEntries]

/-- C5 witness: an archive holding one directory member packs to `{}` with
count 0. -/
theorem c5_empty_and_dirs_witness :
    packDoc [⟨"d/".toList, []⟩] = ['\x7b', '\x7d'] ∧
    packCount [⟨"d/".toList, []⟩] = 0 :=
  (c5_empty_and_dirs [⟨"d/".toList, []⟩]).1 (by decide)

/-- C10: if opening the zip archive fails, `pack` reports the error and
returns before the output file is opened, created or truncated: the
filesystem state is unchanged and no count is reported. -/
theorem c10_pack_open_failure (fs : FS) (licaPath : List Char) :
    pack none fs licaPath = (fs, none) := rfl

/-- C8: when `unpack` is called with `use_stream=True` but `ijson` is
absent (`HAS_IJSON = False`), it behaves exactly as bulk mode — the
fallback decision is the single `use_stream and HAS_IJSON` test taken
before the per-entry loop. -/
theorem c8_stream_fallback (content : Option (List Char)) (fs : FS) (outDir : List Char)
    (hi : Bool) : unpack true false content fs outDir = unpack false hi content fs outDir := rfl

/-- C7: in bulk mode, a container that cannot be opened (`none`) or whose
content does not parse as a flat JSON object fails the whole operation: no
count is reported, no file is written, and the filesystem is exactly the
input state plus the created output directory. -/
theorem c7_bulk_whole_failure (content : Option (List Char)) (fs : FS) (outDir : List Char)
    (hi : Bool) (h : ∀ s, content = some s → parseContainer s = none) :
    unpack false hi content fs outDir = (makedirs fs outDir, none) ∧
    (unpack false hi content fs outDir).1.files = fs.files := by
  have hu : unpack false hi content fs outDir = (makedirs fs outDir, none) := by
    cases content with
    | none => rfl
    | some s =>
      unfold unpack unpackBulkBody
      dsimp only
      simp only [Bool.false_and, Bool.false_eq_true, if_false]
      rw [h s rfl]
  exact ⟨hu, by rw [hu]; rfl⟩

/-- C7 witness: a container holding `xyz` is rejected by bulk unpack
before anything is written. -/
theorem c7_bulk_whole_failure_witness :
    unpack false false (some "xyz".toList) ⟨[], [], []⟩ "o".toList =
      (makedirs ⟨[], [], []⟩ "o".toList, none) ∧
    (unpack false false (some "xyz".toList) ⟨[], [], []⟩ "o".toList).1.files =
      (⟨[], [], []⟩ : FS).files :=
  c7_bulk_whole_failure (some "xyz".toList) ⟨[], [], []⟩ "o".toList false
    (fun s hs => by cases hs; decide)

/-- C3: on any container that parses as a flat JSON object with distinct
keys, streaming unpack (with `ijson` available) and bulk unpack produce
identical results — the same filesystem state and the same reported
count. -/
theorem c3_stream_bulk_equiv (s : List Char) (ps : List (List Char × List Char))
    (fs : FS) (outDir : List Char)
    (hp : parseContainer s = some ps) (hnd : (ps.map Prod.fst).Nodup) :
    unpack true true (some s) fs outDir = unpack false false (some s) fs outDir := by
  rw [unpack_parsed s ps true true fs outDir hp hnd,
    unpack_parsed s ps false false fs outDir hp hnd]

/-- C3 witness: both modes agree on a concrete one-entry container. -/
theorem c3_stream_bulk_equiv_witness :
    unpack true true (some "\x7b\"a.txt\":\"aGk=\"\x7d".toList) ⟨[], [], []⟩ "o".toList =
      unpack false false (some "\x7b\"a.txt\":\"aGk=\"\x7d".toList) ⟨[], [], []⟩ "o".toList :=
  c3_stream_bulk_equiv "\x7b\"a.txt\":\"aGk=\"\x7d".toList
    [("a.txt".toList, "aGk=".toList)] ⟨[], [], []⟩ "o".toList (by decide) (by decide)

/-- C1 counterexample: the round trip is not count-preserving for every
archive.  An archive with two non-directory members that share the name
`a` packs to a document with a duplicate key (count 2), but bulk unpack
collapses the duplicate through the `dict` built by `json.load` and
reports count 1. -/
theorem c1_roundtrip_counterexample :
    packCount [⟨"a".toList, [0]⟩, ⟨"a".toList, [1]⟩] = 2 ∧
    (unpack false false
        (some (packDoc [⟨"a".toList, [0]⟩, ⟨"a".toList, [1]⟩]))
        ⟨[], [], []⟩ "out".toList).2 = some 1 := by decide

/-- C1 (amended): for every archive whose non-directory member names are
distinct, nonempty and relative (no leading `/`), packing and then
unpacking into a nonempty output directory — in either mode — recreates
every non-directory member byte-identically at the join of the output
directory and its relative name, and both counts equal the number N of
non-directory members. -/
theorem c1_roundtrip (ar : List ZipEntry) (us hi : Bool) (fs : FS) (outDir : List Char)
    (hbytes : ∀ e ∈ ar, ∀ b ∈ e.content, b < 256)
    (hnames : ((ar.filter (fun e => !isDirName e.filename)).map ZipEntry.filename).Nodup)
    (hrel : ∀ e ∈ ar, e.filename.head? ≠ some '/')
    (_hne : ∀ e ∈ ar, e.filename ≠ [])
    (hout : outDir ≠ []) :
    (unpack us hi (some (packDoc ar)) fs outDir).2 = some (packCount ar) ∧
    packCount ar = (ar.filter (fun e => !isDirName e.filename)).length ∧
    ∀ e ∈ ar, isDirName e.filename = false →
      getEntry (unpack us hi (some (packDoc ar)) fs outDir).1.files
        (osJoin outDir e.filename) = some e.content := by
  have hkeys : ((packEntries ar).map Prod.fst).Nodup := by
    simp only [packEntries, List.map_map]
    exact hnames
  have hkeyrel : ∀ x ∈ (packEntries ar).map Prod.fst, x.head? ≠ some '/' := by
    intro x hx
    obtain ⟨q, hq, rfl⟩ := List.mem_map.mp hx
    obtain ⟨e, he, rfl⟩ := List.mem_map.mp hq
    exact hrel e (List.mem_filter.mp he).1
  have hpaths : ((packEntries ar).map (fun q => osJoin outDir q.1)).Nodup := by
    have hsplit : (packEntries ar).map (fun q => osJoin outDir q.1) =
        ((packEntries ar).map Prod.fst).map (osJoin outDir) := by
      simp [List.map_map]
    rw [hsplit]
    refine List.Nodup.map_on ?_ hkeys
    intro x hx y hy hxy
    exact osJoin_inj outDir hout x y (hkeyrel x hx) (hkeyrel y hy) hxy
  have hdecall : ∀ q ∈ packEntries ar, (b64decode q.2).isSome := by
    intro q hq
    obtain ⟨e, he, rfl⟩ := List.mem_map.mp hq
    rw [b64_decode_encode e.content (hbytes e (List.mem_filter.mp he).1)]
    rfl
  rw [unpack_parsed (packDoc ar) (packEntries ar) us hi fs outDir
    (parseContainer_packDoc ar) hkeys]
  refine ⟨?_, ?_, ?_⟩
  · rw [streamLoop_count]
    rw [List.filter_eq_self.mpr hdecall]
    rfl
  · simp [packCount, packEntries]
  · intro e he hdir
    have hmem : (e.filename, b64encode e.content) ∈ packEntries ar :=
      List.mem_map.mpr ⟨e, List.mem_filter.mpr ⟨he, by simp [hdir]⟩, rfl⟩
    exact streamLoop_files_hit outDir (packEntries ar) e.filename (b64encode e.content)
      e.content hpaths hmem (b64_decode_encode e.content (hbytes e he)) _

/-- C1 witness: a two-file archive round-trips with count 2 and
byte-identical contents. -/
theorem c1_roundtrip_witness :
    (unpack true true
        (some (packDoc [⟨"hello.txt".toList, [104, 105]⟩, ⟨"d/x".toList, [0, 255]⟩]))
        ⟨[], [], []⟩ "out".toList).2 =
      some (packCount [⟨"hello.txt".toList, [104, 105]⟩, ⟨"d/x".toList, [0, 255]⟩]) ∧
    packCount [⟨"hello.txt".toList, [104, 105]⟩, ⟨"d/x".toList, [0, 255]⟩] =
      ([⟨"hello.txt".toList, [104, 105]⟩, ⟨"d/x".toList, [0, 255]⟩].filter
        (fun e : ZipEntry => !isDirName e.filename)).length ∧
    ∀ e ∈ ([⟨"hello.txt".toList, [104, 105]⟩, ⟨"d/x".toList, [0, 255]⟩] : List ZipEntry),
      isDirName e.filename = false →
      getEntry (unpack true true
          (some (packDoc [⟨"hello.txt".toList, [104, 105]⟩, ⟨"d/x".toList, [0, 255]⟩]))
          ⟨[], [], []⟩ "out".toList).1.files
        (osJoin "out".toList e.filename) = some e.content :=
  c1_roundtrip [⟨"hello.txt".toList, [104, 105]⟩, ⟨"d/x".toList, [0, 255]⟩] true true
    ⟨[], [], []⟩ "out".toList (by decide) (by decide) (by decide) (by decide) (by decide)

/-- C4: for a well-formed container in which some entries carry malformed
base64, unpack (either mode) completes and reports the count of the
decodable entries only; every decodable entry's file is written with its
decoded bytes, and a bad entry's destination is never created (given
distinct destinations that do not pre-exist). -/
theorem c4_malformed_entry_skipped (s : List Char) (ps : List (List Char × List Char))
    (us hi : Bool) (fs : FS) (outDir : List Char)
    (hp : parseContainer s = some ps)
    (hnd : (ps.map Prod.fst).Nodup)
    (hpnd : (ps.map (fun q => osJoin outDir q.1)).Nodup)
    (hfresh : ∀ q ∈ ps, getEntry fs.files (osJoin outDir q.1) = none) :
    (unpack us hi (some s) fs outDir).2 =
      some ((ps.filter (fun q => (b64decode q.2).isSome)).length) ∧
    (∀ q ∈ ps, ∀ c, b64decode q.2 = some c →
      getEntry (unpack us hi (some s) fs outDir).1.files (osJoin outDir q.1) = some c) ∧
    (∀ q ∈ ps, b64decode q.2 = none →
      getEntry (unpack us hi (some s) fs outDir).1.files (osJoin outDir q.1) = none) := by
  rw [unpack_parsed s ps us hi fs outDir hp hnd]
  refine ⟨?_, ?_, ?_⟩
  · rw [streamLoop_count]
  · intro q hq c hc
    exact streamLoop_files_hit outDir ps q.1 q.2 c hpnd hq hc _
  · intro q hq hc
    rw [streamLoop_files_miss outDir ps q.1 q.2 hpnd hq hc _]
    rw [makedirs_files]
    exact hfresh q hq

/-- C4 witness: a three-entry container whose middle value `AAAAA` is
malformed base64 unpacks with count 2; the other two files are written and
the bad entry's file is absent. -/
theorem c4_malformed_entry_skipped_witness :
    (unpack false false
        (some "\x7b\"a\":\"aGk=\",\"b\":\"AAAAA\",\"c\":\"aGs=\"\x7d".toList)
        ⟨[], [], []⟩ "o".toList).2 =
      some (([("a".toList, "aGk=".toList), ("b".toList, "AAAAA".toList),
        ("c".toList, "aGs=".toList)].filter
          (fun q : List Char × List Char => (b64decode q.2).isSome)).length) ∧
    (∀ q ∈ [("a".toList, "aGk=".toList), ("b".toList, "AAAAA".toList),
        ("c".toList, "aGs=".toList)], ∀ c, b64decode q.2 = some c →
      getEntry (unpack false false
          (some "\x7b\"a\":\"aGk=\",\"b\":\"AAAAA\",\"c\":\"aGs=\"\x7d".toList)
          ⟨[], [], []⟩ "o".toList).1.files (osJoin "o".toList q.1) = some c) ∧
    (∀ q ∈ [("a".toList, "aGk=".toList), ("b".toList, "AAAAA".toList),
        ("c".toList, "aGs=".toList)], b64decode q.2 = none →
      getEntry (unpack false false
          (some "\x7b\"a\":\"aGk=\",\"b\":\"AAAAA\",\"c\":\"aGs=\"\x7d".toList)
          ⟨[], [], []⟩ "o".toList).1.files (osJoin "o".toList q.1) = none) :=
  c4_malformed_entry_skipped "\x7b\"a\":\"aGk=\",\"b\":\"AAAAA\",\"c\":\"aGs=\"\x7d".toList
    [("a".toList, "aGk=".toList), ("b".toList, "AAAAA".toList), ("c".toList, "aGs=".toList)]
    false false ⟨[], [], []⟩ "o".toList (by decide) (by decide) (by decide) (by decide)

/-- C6: every container entry whose value decodes has all missing
intermediate directories of its destination's dirname created — the whole
`os.makedirs` ancestor chain of `dirname(join(output_root, key))` is in the
resulting directory set — and a file exists at exactly the joined
destination, in either unpack mode. -/
theorem c6_intermediate_dirs (s : List Char) (ps : List (List Char × List Char))
    (us hi : Bool) (fs : FS) (outDir k v : List Char)
    (hp : parseContainer s = some ps) (hnd : (ps.map Prod.fst).Nodup)
    (hmem : (k, v) ∈ ps) (hdec : (b64decode v).isSome) :
    (∀ d ∈ mkdirChain ((dirname (osJoin outDir k)).length + 1) (dirname (osJoin outDir k)),
      d ∈ (unpack us hi (some s) fs outDir).1.dirs) ∧
    (getEntry (unpack us hi (some s) fs outDir).1.files (osJoin outDir k)).isSome := by
  rw [unpack_parsed s ps us hi fs outDir hp hnd]
  exact ⟨fun d hd => streamLoop_dirs_entry outDir ps k v hmem hdec d hd _,
    streamLoop_files_written outDir ps k v hmem hdec _⟩

/-- C6 witness: unpacking a container with key `a/b/c.txt` into `out`
creates the intermediate directories (the ancestor chain of `out/a/b`)
and the file `out/a/b/c.txt`. -/
theorem c6_intermediate_dirs_witness :
    (∀ d ∈ mkdirChain ((dirname (osJoin "out".toList "a/b/c.txt".toList)).length + 1)
        (dirname (osJoin "out".toList "a/b/c.txt".toList)),
      d ∈ (unpack true true (some "\x7b\"a/b/c.txt\":\"aGk=\"\x7d".toList)
          ⟨[], [], []⟩ "out".toList).1.dirs) ∧
    (getEntry (unpack true true (some "\x7b\"a/b/c.txt\":\"aGk=\"\x7d".toList)
        ⟨[], [], []⟩ "out".toList).1.files
      (osJoin "out".toList "a/b/c.txt".toList)).isSome :=
  c6_intermediate_dirs "\x7b\"a/b/c.txt\":\"aGk=\"\x7d".toList
    [("a/b/c.txt".toList, "aGk=".toList)] true true ⟨[], [], []⟩ "out".toList
    "a/b/c.txt".toList "aGk=".toList (by decide) (by decide) (by decide) (by decide)

/-- C9: unpack computes every destination as exactly
`os.path.join(output_dir, key)` with no sanitization or rejection: for
every key — including `..` components — the decoded bytes land at that
joined path, and an absolute key ignores the output directory entirely. -/
theorem c9_exact_join_no_sanitization (k v : List Char) (c : List Nat) (us hi : Bool)
    (fs : FS) (outDir : List Char) (hdec : b64decode v = some c) :
    getEntry (unpack us hi
        (some ('\x7b' :: (jsonDumps k ++ ':' :: (jsonDumps v ++ ['\x7d'])))) fs outDir).1.files
      (osJoin outDir k) = some c ∧
    (∀ b : List Char, b.head? = some '/' → osJoin outDir b = b) := by
  constructor
  · rw [unpack_parsed _ [(k, v)] us hi fs outDir (parseContainer_single k v) (by simp)]
    exact streamLoop_files_hit outDir [(k, v)] k v c (by simp) (by simp) hdec _
  · intro b hb
    unfold osJoin
    rw [if_pos hb]

/-- C9 witness: a container entry keyed `../../etc/passwd` is written at
`out/../../etc/passwd`, outside the output directory after resolution. -/
theorem c9_exact_join_no_sanitization_witness :
    getEntry (unpack false false
        (some ('\x7b' :: (jsonDumps "../../etc/passwd".toList ++ ':' ::
          (jsonDumps "aGk=".toList ++ ['\x7d'])))) ⟨[], [], []⟩ "out".toList).1.files
      (osJoin "out".toList "../../etc/passwd".toList) = some [104, 105] ∧
    (∀ b : List Char, b.head? = some '/' → osJoin "out".toList b = b) :=
  c9_exact_join_no_sanitization "../../etc/passwd".toList "aGk=".toList [104, 105]
    false false ⟨[], [], []⟩ "out".toList (by decide)
